import Mathlib

/-!
Verification of the Flutter/Dart heuristic code analyzer
(`src/analyzer/code_analyzer.py`).

A file is modelled as a list of lines, each line a `List Char` (the raw
text of the line, as produced by `readlines`, so a line may end in a
newline character).  Every detection pass of the analyzer is translated
into an executable Lean function; the regular expressions used by the
source are compiled into deterministic character-level matchers (at each
decision point of every pattern the relevant character classes are
disjoint, so a greedy deterministic scan recognises exactly the same
strings as the backtracking regex engine).
-/

/-- Raw text of one line of a source file. -/
abbrev Line := List Char

/-- ASCII whitespace, as recognised by Python's `\s` regex class and by
`str.strip()` on ASCII text: space, tab, newline, carriage return,
vertical tab and form feed. -/
def pyWS (c : Char) : Bool :=
  c == ' ' || c == '\t' || c == '\n' || c == '\r' || c == '\x0b' || c == '\x0c'

/-- The apostrophe character (Python's single-quote delimiter). -/
def squoteC : Char := Char.ofNat 39

/-- The double-quote character. -/
def dquoteC : Char := Char.ofNat 34

/-- Python `str.strip()`: remove leading and trailing whitespace. -/
def strip (l : Line) : Line :=
  ((l.dropWhile pyWS).reverse.dropWhile pyWS).reverse

/-- Python `enumerate` starting at index `i`: pair every line with its
0-based index. -/
def enumLines : Nat → List Line → List (Nat × Line)
  | _, [] => []
  | i, l :: ls => (i, l) :: enumLines (i + 1) ls

/-- Concatenation of the per-element issue lists, in order (the shape of
every `for` loop of the analyzer that appends to a result list). -/
def concatMapL {α β : Type} (f : α → List β) : List α → List β
  | [] => []
  | a :: r => f a ++ concatMapL f r

/-- Decimal rendering of a natural number, as Python `str`/f-strings do. -/
def natStr (n : Nat) : String := String.mk (Nat.toDigits 10 n)

/-- Decimal rendering of an integer, as Python f-strings do. -/
def intStr (i : Int) : String :=
  if i < 0 then "-" ++ natStr i.natAbs else natStr i.natAbs

/-- The `CodeIssue` dataclass of the analyzer (the spec's "Finding"). -/
structure CodeIssue where
  line_number : Nat
  issue_type : String
  description : String
  code_snippet : Line
deriving DecidableEq

/-- Python `stripped.startswith(('//', '/*', '*'))`: the line-leading
comment markers of the heuristic model. -/
def isCommentStart (t : Line) : Bool :=
  ("//".toList).isPrefixOf t || ("/*".toList).isPrefixOf t || ("*".toList).isPrefixOf t

/-- The condition `stripped and not stripped.startswith(('//', '/*', '*'))`
applied to an already-stripped line: non-blank and not a comment. -/
def isCodeText (t : Line) : Bool := !t.isEmpty && !isCommentStart t

/-! ### Duplication pass (`_detect_duplicate_code`, lines 54-74) -/

/-- Description emitted by the duplication pass:
`f"Duplicate code found (appears N times)"`. -/
def dupDescr (n : Nat) : String :=
  "Duplicate code found (appears " ++ natStr n ++ " times)"

/-- One step of `code_blocks[stripped].append(i + 1)` on the insertion-ordered
dictionary, modelled as an association list: append `n` to the entry with
key `s`, or add a new entry `(s, [n])` at the end. -/
def addBlock : List (Line × List Nat) → Line → Nat → List (Line × List Nat)
  | [], s, n => [(s, [n])]
  | (k, ns) :: rest, s, n =>
    if k = s then (k, ns ++ [n]) :: rest else (k, ns) :: addBlock rest s n

/-- The first `for` loop of `_detect_duplicate_code`: fold over the lines
(0-based index `i`), recording `i + 1` under the stripped text of every
non-blank, non-comment line. -/
def buildBlocks : List (Line × List Nat) → Nat → List Line → List (Line × List Nat)
  | blocks, _, [] => blocks
  | blocks, i, line :: rest =>
    if isCodeText (strip line) then
      buildBlocks (addBlock blocks (strip line) (i + 1)) (i + 1) rest
    else
      buildBlocks blocks (i + 1) rest

/-- The body of the second `for` loop of `_detect_duplicate_code`: a block
whose occurrence list has more than one entry and whose code text is longer
than 20 characters yields one issue per recorded line. -/
def emitDup (b : Line × List Nat) : List CodeIssue :=
  if b.2.length > 1 && b.1.length > 20 then
    b.2.map (fun n => ⟨n, "Duplication", dupDescr b.2.length, b.1⟩)
  else []

/-- `_detect_duplicate_code`: group non-blank non-comment lines by stripped
text, then flag every group with more than one occurrence and length > 20. -/
def detect_duplicate_code (content : List Line) : List CodeIssue :=
  concatMapL emitDup (buildBlocks [] 0 content)

/-- Keys of an association list of code blocks. -/
def keysOf (blocks : List (Line × List Nat)) : List Line := blocks.map Prod.fst

/-- Lookup in the association list of code blocks (`[]` when absent). -/
def lookupBlock : List (Line × List Nat) → Line → List Nat
  | [], _ => []
  | (k, ns) :: rest, s => if k = s then ns else lookupBlock rest s

/-- The 1-based line numbers (counting from 0-based start index `i`) of the
non-blank non-comment lines whose stripped text is `s`. -/
def occLinesFrom : Nat → List Line → Line → List Nat
  | _, [], _ => []
  | i, line :: rest, s =>
    (if isCodeText (strip line) && strip line = s then [i + 1] else [])
      ++ occLinesFrom (i + 1) rest s

/-- The 1-based line numbers of the occurrences of stripped code text `s`
in a file (the occurrence list the duplication pass groups by). -/
def occurrenceLines (content : List Line) (s : Line) : List Nat :=
  occLinesFrom 0 content s

/-! ### Unused-import pass (`_detect_unused_imports`, lines 76-105) -/

/-- Consume the literal `pat` at the front of `s`, returning the remainder,
or `none` when `pat` is not a prefix of `s`. -/
def dropLit : Line → Line → Option Line
  | [], s => some s
  | _, [] => none
  | c :: pr, d :: s => if c = d then dropLit pr s else none

/-- The regex fragment `(.+?)['"]` of the import pattern: the shortest
non-empty run of characters followed by a quote (single or double); returns
that run.  `go`-style accumulator holds the run reversed. -/
def takeQuotedGo (acc : Line) : Line → Option Line
  | [] => none
  | c :: rest =>
    if c = squoteC || c = dquoteC then some acc.reverse
    else takeQuotedGo (c :: acc) rest

/-- Capture group of `(.+?)['"]`: at least one character, up to the first
following quote character. -/
def takeQuoted : Line → Option Line
  | [] => none
  | c :: rest => takeQuotedGo [c] rest

/-- The import pattern `^import\s+['"](.+?)['"]` applied with `re.match`:
the literal `import`, at least one whitespace character, an opening quote
(single or double), then the capture.  Returns the captured path. -/
def parseImport (s : Line) : Option Line :=
  match dropLit ("import".toList) s with
  | none => none
  | some r =>
    match r with
    | [] => none
    | c :: _ =>
      if pyWS c then
        match r.dropWhile pyWS with
        | [] => none
        | q :: r2 =>
          if q = squoteC || q = dquoteC then takeQuoted r2 else none
      else none

/-- Python `path.split('/')[-1]`: the text after the last `/` (or the whole
text when there is none). -/
def lastSegment (path : Line) : Line :=
  (path.reverse.takeWhile (fun c => c ≠ '/')).reverse

/-- Python `seg.split('.')[0]`: the text before the first `.` (or the whole
text when there is none). -/
def firstPart (seg : Line) : Line := seg.takeWhile (fun c => c ≠ '.')

/-- `import_stmt.split('/')[-1].split('.')[0]`: the identifier the usage
scan searches for. -/
def importName (path : Line) : Line := firstPart (lastSegment path)

/-- Python's substring test `pat in l`: `pat` is a prefix of some suffix
of `l`. -/
def containsSub (pat l : Line) : Bool := l.tails.any (fun t => pat.isPrefixOf t)

/-- The usage scan of `_detect_unused_imports`: some line of the file
contains `"<name>."` or `" <name>("` as a substring (the scan is over the
raw lines, the import line included). -/
def isUsed (content : List Line) (name : Line) : Bool :=
  content.any (fun l =>
    containsSub (name ++ ['.']) l || containsSub (' ' :: (name ++ ['('])) l)

/-- First pass of `_detect_unused_imports`: all `(1-based line number,
captured path)` pairs of lines whose stripped text matches the import
pattern. -/
def collectImports (content : List Line) : List (Nat × Line) :=
  (enumLines 0 content).filterMap
    (fun p => (parseImport (strip p.2)).map (fun path => (p.1 + 1, path)))

/-- `_detect_unused_imports`: emit an issue for every collected import whose
derived identifier is used nowhere in the file. -/
def detect_unused_imports (content : List Line) : List CodeIssue :=
  (collectImports content).filterMap (fun q =>
    if isUsed content (importName q.2) then none
    else some ⟨q.1, "Unused Import",
               "Unused import: " ++ String.mk q.2,
               strip (content.getD (q.1 - 1) [])⟩)

/-! ### Long-method pass (`_detect_long_methods`, lines 107-138) -/

/-- States of the deterministic automaton recognising the method-signature
pattern `^\s*(?:@[a-zA-Z]+\s+)*[a-zA-Z]+\s+[a-zA-Z]+\s*\([^)]*\)\s*[a-zA-Z]*\s*\{?`
(applied with `re.match`; the trailing `\s*[a-zA-Z]*\s*\{?` can always match
the empty string, so recognition ends at the closing parenthesis).  At every
state the character classes deciding the next state are disjoint, so this
automaton accepts exactly the prefixes the backtracking regex engine does. -/
inductive SigSt where
  /-- in the leading `\s*` -/
  | lead
  /-- just after `@`, at least one alphabetic character required -/
  | annName
  /-- inside the annotation name `[a-zA-Z]+` -/
  | annBody
  /-- inside the `\s+` after an annotation -/
  | annWS
  /-- inside the first word `[a-zA-Z]+` (return-type-like token) -/
  | word1
  /-- inside the `\s+` between the two words -/
  | midWS
  /-- inside the second word `[a-zA-Z]+` (the name) -/
  | word2
  /-- inside the `\s*` before `(` -/
  | preParen
  /-- inside `[^)]*`, waiting for `)` -/
  | inParen
deriving DecidableEq

/-- Transition-and-accept function of the signature automaton. -/
def sigRun : SigSt → Line → Bool
  | _, [] => false
  | SigSt.lead, c :: r =>
    if pyWS c then sigRun SigSt.lead r
    else if c = '@' then sigRun SigSt.annName r
    else if c.isAlpha then sigRun SigSt.word1 r
    else false
  | SigSt.annName, c :: r => if c.isAlpha then sigRun SigSt.annBody r else false
  | SigSt.annBody, c :: r =>
    if c.isAlpha then sigRun SigSt.annBody r
    else if pyWS c then sigRun SigSt.annWS r
    else false
  | SigSt.annWS, c :: r =>
    if pyWS c then sigRun SigSt.annWS r
    else if c = '@' then sigRun SigSt.annName r
    else if c.isAlpha then sigRun SigSt.word1 r
    else false
  | SigSt.word1, c :: r =>
    if c.isAlpha then sigRun SigSt.word1 r
    else if pyWS c then sigRun SigSt.midWS r
    else false
  | SigSt.midWS, c :: r =>
    if pyWS c then sigRun SigSt.midWS r
    else if c.isAlpha then sigRun SigSt.word2 r
    else false
  | SigSt.word2, c :: r =>
    if c.isAlpha then sigRun SigSt.word2 r
    else if pyWS c then sigRun SigSt.preParen r
    else if c = '(' then sigRun SigSt.inParen r
    else false
  | SigSt.preParen, c :: r =>
    if pyWS c then sigRun SigSt.preParen r
    else if c = '(' then sigRun SigSt.inParen r
    else false
  | SigSt.inParen, c :: r => if c = ')' then true else sigRun SigSt.inParen r

/-- `method_pattern.match(line_text)` of `_detect_long_methods`. -/
def matchMethodSig (t : Line) : Bool := sigRun SigSt.lead t

/-- `line_text.count('{') - line_text.count('}')`: the brace-count change
contributed by one line. -/
def braceDelta (t : Line) : Int :=
  (t.count '\x7b' : Int) - (t.count '\x7d' : Int)

/-- Description emitted by the long-method pass:
`f"Method is too long ({method_length} lines)"`. -/
def longDescr (len : Int) : String :=
  "Method is too long (" ++ intStr len ++ " lines)"

/-- One iteration of the `_detect_long_methods` loop at 0-based index `i`:
given the tracking state (`some (method_start, stripped start line)` or
`none`) and the running brace count, return the new state, the new brace
count, and the issues emitted on this line. -/
def longStep (st : Option (Nat × Line)) (bc : Int) (i : Nat) (line : Line) :
    (Option (Nat × Line) × Int) × List CodeIssue :=
  let t := strip line
  let st1 := if st = none ∧ matchMethodSig t then some (i + 1, t) else st
  let bc1 := if st = none ∧ matchMethodSig t then 0 else bc
  match st1 with
  | none => ((none, bc1), [])
  | some (s, snip) =>
    let bc2 := bc1 + braceDelta t
    if bc2 ≤ 0 then
      ((none, bc2),
        if (i : Int) + 1 - s > 20 then
          [⟨s, "Long Method", longDescr ((i : Int) + 1 - s), snip⟩]
        else [])
    else ((some (s, snip), bc2), [])

/-- The `for` loop of `_detect_long_methods`, threading the tracking state
and brace count through the lines. -/
def longAux (st : Option (Nat × Line)) (bc : Int) (i : Nat) :
    List Line → List CodeIssue
  | [] => []
  | line :: rest =>
    (longStep st bc i line).2
      ++ longAux (longStep st bc i line).1.1 (longStep st bc i line).1.2 (i + 1) rest

/-- `_detect_long_methods`. -/
def detect_long_methods (content : List Line) : List CodeIssue :=
  longAux none 0 0 content

/-! ### Dead-code pass (`_detect_dead_code`, lines 140-166) -/

/-- Character class `[_a-zA-Z]`. -/
def identChar (c : Char) : Bool := c = '_' || c.isAlpha

/-- States of the deterministic automaton recognising the private-method
pattern `^\s*[_a-zA-Z]+\s+_[a-zA-Z]+\s*\([^)]*\)\s*\{?` (applied with
`re.match`; the trailing `\s*\{?` can always match the empty string, so
recognition ends at the closing parenthesis).  As for `SigSt`, the deciding
character classes are disjoint at every state, so the automaton is exact. -/
inductive DeadSt where
  /-- in the leading `\s*` -/
  | lead
  /-- inside the first token `[_a-zA-Z]+` -/
  | tok1
  /-- inside the `\s+` after the first token, waiting for `_` -/
  | sep
  /-- just after `_`, at least one alphabetic character required -/
  | usName
  /-- inside the `[a-zA-Z]+` of the private name -/
  | usBody
  /-- inside the `\s*` before `(` -/
  | preParen
  /-- inside `[^)]*`, waiting for `)` -/
  | inParen
deriving DecidableEq

/-- Transition-and-accept function of the private-method automaton. -/
def deadRun : DeadSt → Line → Bool
  | _, [] => false
  | DeadSt.lead, c :: r =>
    if pyWS c then deadRun DeadSt.lead r
    else if identChar c then deadRun DeadSt.tok1 r
    else false
  | DeadSt.tok1, c :: r =>
    if identChar c then deadRun DeadSt.tok1 r
    else if pyWS c then deadRun DeadSt.sep r
    else false
  | DeadSt.sep, c :: r =>
    if pyWS c then deadRun DeadSt.sep r
    else if c = '_' then deadRun DeadSt.usName r
    else false
  | DeadSt.usName, c :: r => if c.isAlpha then deadRun DeadSt.usBody r else false
  | DeadSt.usBody, c :: r =>
    if c.isAlpha then deadRun DeadSt.usBody r
    else if pyWS c then deadRun DeadSt.preParen r
    else if c = '(' then deadRun DeadSt.inParen r
    else false
  | DeadSt.preParen, c :: r =>
    if pyWS c then deadRun DeadSt.preParen r
    else if c = '(' then deadRun DeadSt.inParen r
    else false
  | DeadSt.inParen, c :: r => if c = ')' then true else deadRun DeadSt.inParen r

/-- `private_method_pattern.match(line_text)` of `_detect_dead_code`. -/
def matchPrivateDecl (t : Line) : Bool := deadRun DeadSt.lead t

/-- Python `line_text.split('(')[0]`: the text before the first `(`. -/
def beforeParen (t : Line) : Line := t.takeWhile (fun c => c ≠ '(')

/-- Python `str.split()` with no argument: split on runs of whitespace,
dropping empty segments.  The accumulator holds the current token
reversed. -/
def wsSplitGo (cur : Line) : Line → List Line
  | [] => if cur = [] then [] else [cur.reverse]
  | c :: r =>
    if pyWS c then
      if cur = [] then wsSplitGo [] r else cur.reverse :: wsSplitGo [] r
    else wsSplitGo (c :: cur) r

/-- Python `str.split()` with no argument. -/
def wsSplit (t : Line) : List Line := wsSplitGo [] t

/-- `line_text.split('(')[0].split()[-1]`: the token immediately preceding
the parenthesis (the private method's name). -/
def deriveName (t : Line) : Line := (wsSplit (beforeParen t)).getLastD []

/-- Description emitted by the dead-code pass:
`f"Private method '{method_name}' is never called"`. -/
def deadDescr (name : Line) : String :=
  "Private method " ++ String.mk [squoteC] ++ String.mk name
    ++ String.mk [squoteC] ++ " is never called"

/-- The call scan of `_detect_dead_code`: some line other than the
declaration line itself (compared by raw text value) contains
`"<name>("`. -/
def isCalled (content : List Line) (name : Line) (line : Line) : Bool :=
  content.any (fun other => containsSub (name ++ ['(']) other && other ≠ line)

/-- The body of the `_detect_dead_code` loop at 0-based index `i`. -/
def deadAt (content : List Line) (i : Nat) (line : Line) : List CodeIssue :=
  let t := strip line
  if matchPrivateDecl t then
    if isCalled content (deriveName t) line then []
    else [⟨i + 1, "Dead Code", deadDescr (deriveName t), t⟩]
  else []

/-- `_detect_dead_code`. -/
def detect_dead_code (content : List Line) : List CodeIssue :=
  concatMapL (fun p => deadAt content p.1 p.2) (enumLines 0 content)

/-! ### Potential-bug pass (`_detect_potential_bugs`, lines 168-194) -/

/-- Anchored match of the null-check pattern `!\s*=\s*null` at the start of
the given text. -/
def matchNullAt : Line → Bool
  | [] => false
  | c :: r =>
    c = '!' &&
      (match r.dropWhile pyWS with
       | [] => false
       | d :: r2 => d = '=' && ("null".toList).isPrefixOf (r2.dropWhile pyWS))

/-- `null_check_pattern.search(line_text)`: the pattern `!\s*=\s*null`
matches at some position of the text. -/
def searchNull (t : Line) : Bool := t.tails.any matchNullAt

/-- Anchored match of the empty-catch pattern `catch\s*\([^)]*\)\s*\{\s*\}`
at the start of the given text. -/
def matchCatchAt (s : Line) : Bool :=
  match dropLit ("catch".toList) s with
  | none => false
  | some r =>
    match r.dropWhile pyWS with
    | '(' :: r2 =>
      match r2.dropWhile (fun c => c ≠ ')') with
      | ')' :: r3 =>
        match r3.dropWhile pyWS with
        | '\x7b' :: r4 =>
          match r4.dropWhile pyWS with
          | '\x7d' :: _ => true
          | _ => false
        | _ => false
      | _ => false
    | _ => false

/-- `empty_catch_pattern.search(line_text)`. -/
def searchCatch (t : Line) : Bool := t.tails.any matchCatchAt

/-- Description of the null-check finding. -/
def nullDescr : String := "Null check without null-aware operator (?.)"

/-- Description of the empty-catch finding. -/
def catchDescr : String := "Empty catch block - exceptions should be handled properly"

/-- The body of the `_detect_potential_bugs` loop at 0-based index `i`:
the two independent line-local checks, in source order. -/
def bugsAt (i : Nat) (line : Line) : List CodeIssue :=
  let t := strip line
  (if searchNull t && !t.contains '?' then
     [⟨i + 1, "Potential Bug", nullDescr, t⟩]
   else [])
    ++ (if searchCatch t then [⟨i + 1, "Potential Bug", catchDescr, t⟩] else [])

/-- `_detect_potential_bugs`. -/
def detect_potential_bugs (content : List Line) : List CodeIssue :=
  concatMapL (fun p => bugsAt p.1 p.2) (enumLines 0 content)

/-! ### Metrics aggregator (`_calculate_metrics`, lines 196-216) -/

/-- `total_lines = len(content)`. -/
def total_lines (content : List Line) : Nat := content.length

/-- `code_lines`: lines with non-blank stripped text not starting with a
comment marker. -/
def code_lines (content : List Line) : Nat :=
  (content.filter (fun l => isCodeText (strip l))).length

/-- `comment_lines`: lines whose stripped text starts with a comment
marker. -/
def comment_lines (content : List Line) : Nat :=
  (content.filter (fun l => isCommentStart (strip l))).length

/-- `comment_density = comment_lines / code_lines * 100 if code_lines else 0`
(Python true division, modelled over `ℚ`). -/
def comment_density (content : List Line) : ℚ :=
  if code_lines content ≠ 0 then
    (comment_lines content : ℚ) / (code_lines content : ℚ) * 100
  else 0

/-- One step of `issue_counts[issue.issue_type] += 1` on the
insertion-ordered counting dictionary, modelled as an association list. -/
def bumpCount : List (String × Nat) → String → List (String × Nat)
  | [], t => [(t, 1)]
  | (k, n) :: rest, t =>
    if k = t then (k, n + 1) :: rest else (k, n) :: bumpCount rest t

/-- The counting loop of `_calculate_metrics`: one entry per distinct
`issue_type`, in first-occurrence order, holding its occurrence count. -/
def issue_counts (issues : List CodeIssue) : List (String × Nat) :=
  issues.foldl (fun acc x => bumpCount acc x.issue_type) []

/-- `f"{issue_type.lower().replace(' ', '_')}_count"`: the normalized
metrics key for an issue type. -/
def metricKey (t : String) : String :=
  String.mk (((t.toList.map Char.toLower)).map (fun c => if c = ' ' then '_' else c))
    ++ "_count"

/-- The per-category count entries added to the metrics mapping. -/
def countEntries (issues : List CodeIssue) : List (String × ℚ) :=
  (issue_counts issues).map (fun p => (metricKey p.1, (p.2 : ℚ)))

/-- `_calculate_metrics`: the four size/comment entries followed by one
count entry per distinct issue category present. -/
def calculate_metrics (content : List Line) (issues : List CodeIssue) :
    List (String × ℚ) :=
  [("total_lines", (total_lines content : ℚ)),
   ("code_lines", (code_lines content : ℚ)),
   ("comment_lines", (comment_lines content : ℚ)),
   ("comment_density", comment_density content)]
    ++ countEntries issues

/-! ### Orchestrator (`analyze_flutter_project`, lines 19-52; file reading
is the external I/O collaborator, so the per-file body is modelled on an
already-loaded line sequence) -/

/-- The issue list assembled for one file: the five passes, in source
order. -/
def analyzeContent (content : List Line) : List CodeIssue :=
  detect_duplicate_code content ++ detect_unused_imports content
    ++ detect_long_methods content ++ detect_dead_code content
    ++ detect_potential_bugs content

/-- The `FileAnalysis` dataclass. -/
structure FileAnalysis where
  file_path : String
  issues : List CodeIssue
  metrics : List (String × ℚ)
deriving DecidableEq

/-- The per-file body of `analyze_flutter_project`. -/
def analyzeFileContent (path : String) (content : List Line) : FileAnalysis :=
  ⟨path, analyzeContent content, calculate_metrics content (analyzeContent content)⟩

/-! ### Concrete input files used to instantiate the theorems -/

/-- Convenience conversion from a string literal to a raw line. -/
def lineOf (s : String) : Line := s.toList

/-- The line `import 'package:app/widgets/button.dart';` (with trailing
newline, as `readlines` produces). -/
def exImportButton : Line :=
  lineOf ("import " ++ String.mk [squoteC] ++ "package:app/widgets/button.dart"
    ++ String.mk [squoteC] ++ ";\n")

/-- The path captured from `exImportButton` by the import pattern. -/
def exButtonPath : Line := lineOf ("package:app/widgets/button.dart")

/-- A line using the `button` identifier: `button.onTap();`. -/
def exUseButton : Line := lineOf ("button.onTap();\n")

/-- A method signature line with its opening brace. -/
def exSigLine : Line := lineOf ("void foo() \x7b\n")

/-- A plain body line with no braces. -/
def exBodyLine : Line := lineOf ("x;\n")

/-- A closing-brace line. -/
def exCloseLine : Line := lineOf ("\x7d\n")

/-- A 21-line file: signature on line 1, closing brace on line 21. -/
def exFile21 : List Line := exSigLine :: (List.replicate 19 exBodyLine ++ [exCloseLine])

/-- A 22-line file: signature on line 1, closing brace on line 22. -/
def exFile22 : List Line := exSigLine :: (List.replicate 20 exBodyLine ++ [exCloseLine])

/-- A method signature line without any brace. -/
def exSigNoBrace : Line := lineOf ("void foo()\n")

/-- The private declaration `void _helper() {`. -/
def exDeadDecl : Line := lineOf ("void _helper() \x7b\n")

/-- A line calling the private method: contains `_helper(1)`. -/
def exDeadCall : Line := lineOf ("  _helper(1);\n")

/-- The line `if (value != null) {`. -/
def exNullLine : Line := lineOf ("if (value != null) \x7b\n")

/-- The line `if (value?.x != null)`. -/
def exNullSafeLine : Line := lineOf ("if (value?.x != null)\n")

/-- The line `catch (e) {  }`. -/
def exCatchLine : Line := lineOf ("catch (e) \x7b  \x7d\n")

/-- A 24-character code line (longer than the 20-character duplication
threshold). -/
def exDupLine : Line := lineOf ("aaaaaaaaaaaaaaaaaaaaaaaa\n")

/-- A file with the long line duplicated around a short one. -/
def exDupFile : List Line := [exDupLine, exBodyLine, exDupLine]

/-- A file with one comment line and one code line. -/
def exCommentFile : List Line := [lineOf ("// c\n"), lineOf ("x;\n")]

/-- A file with no code lines at all. -/
def exCommentOnly : List Line := [lineOf ("// only comments here\n")]


/-! ## Lemmas

Basic facts about the enumeration of lines and the loop combinator. -/

/-- Every pair produced by `enumLines k c` has index in `[k, k + length)`
and carries a line of `c`. -/
theorem mem_enumLines : ∀ (k : Nat) (c : List Line) (p : Nat × Line),
    p ∈ enumLines k c → k ≤ p.1 ∧ p.1 < k + c.length ∧ p.2 ∈ c := by
  intro k c
  induction c generalizing k with
  | nil => intro p h; simp [enumLines] at h
  | cons l ls ih =>
    intro p h
    rw [enumLines] at h
    rcases List.mem_cons.mp h with h | h
    · subst h
      refine ⟨Nat.le_refl k, by simp, by simp⟩
    · obtain ⟨h1, h2, h3⟩ := ih (k + 1) p h
      exact ⟨Nat.le_of_succ_le h1, by simp; omega, List.mem_cons_of_mem l h3⟩

/-- `enumLines` pairs each index with a unique line. -/
theorem enumLines_snd_eq : ∀ (k : Nat) (c : List Line) (i : Nat) (l l' : Line),
    (i, l) ∈ enumLines k c → (i, l') ∈ enumLines k c → l = l' := by
  intro k c
  induction c generalizing k with
  | nil => intro i l l' h; simp [enumLines] at h
  | cons a ls ih =>
    intro i l l' h h'
    rw [enumLines] at h h'
    rcases List.mem_cons.mp h with h | h <;> rcases List.mem_cons.mp h' with h' | h'
    · cases h; cases h'; rfl
    · cases h
      have := (mem_enumLines (k + 1) ls _ h').1
      omega
    · cases h'
      have := (mem_enumLines (k + 1) ls _ h).1
      omega
    · exact ih (k + 1) i l l' h h'

/-- Membership in the issue concatenation. -/
theorem mem_concatMapL {α β : Type} (f : α → List β) :
    ∀ (l : List α) (x : β), x ∈ concatMapL f l ↔ ∃ a ∈ l, x ∈ f a := by
  intro l x
  induction l with
  | nil => simp [concatMapL]
  | cons a r ih => simp [concatMapL, ih]

/-- Occurrence count through the issue concatenation. -/
theorem count_concatMapL {α β : Type} [DecidableEq β] (f : α → List β) :
    ∀ (l : List α) (x : β),
      (concatMapL f l).count x = (l.map (fun a => (f a).count x)).sum := by
  intro l x
  induction l with
  | nil => simp [concatMapL]
  | cons a r ih => simp [concatMapL, List.count_append, ih]

/-- When the element list has no duplicates and exactly one element can
contribute copies of `x`, the count of `x` in the concatenation is its
count in that element's contribution. -/
theorem count_concatMapL_unique {α β : Type} [DecidableEq β]
    (f : α → List β) (x : β) : ∀ (l : List α) (a : α), l.Nodup → a ∈ l →
      (∀ b ∈ l, b ≠ a → (f b).count x = 0) →
      (concatMapL f l).count x = (f a).count x := by
  intro l
  induction l with
  | nil => intro a _ h; simp at h
  | cons c r ih =>
    intro a hnd ha hz
    have hcr : c ∉ r := (List.nodup_cons.mp hnd).1
    have hrnd : r.Nodup := (List.nodup_cons.mp hnd).2
    by_cases hca : c = a
    · cases hca
      have : (concatMapL f r).count x = 0 := by
        rw [count_concatMapL]
        refine List.sum_eq_zero ?_
        intro m hm
        obtain ⟨b, hb, hbm⟩ := List.mem_map.mp hm
        have hba : b ≠ c := fun h => hcr (h ▸ hb)
        rw [← hbm]
        exact hz b (List.mem_cons_of_mem _ hb) hba
      simp [concatMapL, List.count_append, this]
    · have hc : (f c).count x = 0 := hz c (List.mem_cons_self c r) hca
      have ha' : a ∈ r := by
        rcases List.mem_cons.mp ha with h | h
        · exact absurd h.symm hca
        · exact h
      simp [concatMapL, List.count_append, hc]
      exact ih a hrnd ha' (fun b hb => hz b (List.mem_cons_of_mem _ hb))


/-! Facts about the insertion-ordered dictionary of code blocks. -/

/-- Effect of `addBlock` on lookups. -/
theorem lookupBlock_addBlock : ∀ (bl : List (Line × List Nat)) (s : Line) (n : Nat)
    (x : Line), lookupBlock (addBlock bl s n) x
      = lookupBlock bl x ++ (if x = s then [n] else []) := by
  intro bl s n
  induction bl with
  | nil =>
    intro x
    by_cases h : x = s
    · subst h
      simp [addBlock, lookupBlock]
    · have h' : ¬ s = x := fun hs => h hs.symm
      simp [addBlock, lookupBlock, h, h']
  | cons b rest ih =>
    intro x
    obtain ⟨k, ns⟩ := b
    by_cases hks : k = s
    · subst hks
      by_cases hkx : k = x
      · subst hkx
        simp [addBlock, lookupBlock]
      · have hxk : ¬ x = k := fun h => hkx h.symm
        simp [addBlock, lookupBlock, hkx, hxk]
    · by_cases hkx : k = x
      · subst hkx
        have hxs : ¬ k = s := hks
        simp [addBlock, lookupBlock, hks, hxs]
      · simp [addBlock, lookupBlock, hks, hkx, ih]

/-- Effect of `addBlock` on the key list. -/
theorem keysOf_addBlock : ∀ (bl : List (Line × List Nat)) (s : Line) (n : Nat),
    keysOf (addBlock bl s n)
      = if s ∈ keysOf bl then keysOf bl else keysOf bl ++ [s] := by
  intro bl s n
  induction bl with
  | nil => simp [addBlock, keysOf]
  | cons b rest ih =>
    obtain ⟨k, ns⟩ := b
    by_cases hks : k = s
    · subst hks
      simp [addBlock, keysOf]
    · have hsk : ¬ s = k := fun h => hks h.symm
      rw [addBlock, if_neg hks]
      simp only [keysOf, List.map_cons] at ih ⊢
      rw [ih]
      by_cases hmem : s ∈ rest.map Prod.fst
      · simp [hmem, hsk]
      · simp [hmem, hsk]

/-- `addBlock` preserves distinctness of the keys. -/
theorem keysOf_addBlock_nodup (bl : List (Line × List Nat)) (s : Line) (n : Nat)
    (h : (keysOf bl).Nodup) : (keysOf (addBlock bl s n)).Nodup := by
  rw [keysOf_addBlock]
  by_cases hmem : s ∈ keysOf bl
  · simpa [hmem] using h
  · rw [if_neg hmem, List.nodup_append]
    refine ⟨h, List.nodup_singleton s, ?_⟩
    intro a ha has
    rw [List.mem_singleton] at has
    subst has
    exact hmem ha

/-- The dictionary built by the first loop maps every key to the occurrence
list of that stripped text over the processed lines. -/
theorem buildBlocks_lookup : ∀ (rest : List Line) (i : Nat)
    (bl : List (Line × List Nat)) (s : Line),
    lookupBlock (buildBlocks bl i rest) s = lookupBlock bl s ++ occLinesFrom i rest s := by
  intro rest
  induction rest with
  | nil => intro i bl s; simp [buildBlocks, occLinesFrom]
  | cons line r ih =>
    intro i bl s
    by_cases hc : isCodeText (strip line) = true
    · by_cases hs : strip line = s
      · subst hs
        rw [buildBlocks, if_pos hc, ih, lookupBlock_addBlock, occLinesFrom]
        simp [hc]
      · have hs' : ¬ s = strip line := fun h => hs h.symm
        rw [buildBlocks, if_pos hc, ih, lookupBlock_addBlock, occLinesFrom]
        simp [hc, hs, hs']
    · rw [buildBlocks, if_neg hc, ih, occLinesFrom]
      simp [hc]

/-- The first loop preserves distinctness of the keys. -/
theorem buildBlocks_keys_nodup : ∀ (rest : List Line) (i : Nat)
    (bl : List (Line × List Nat)), (keysOf bl).Nodup →
    (keysOf (buildBlocks bl i rest)).Nodup := by
  intro rest
  induction rest with
  | nil => intro i bl h; simpa [buildBlocks] using h
  | cons line r ih =>
    intro i bl h
    by_cases hc : isCodeText (strip line) = true
    · rw [buildBlocks, if_pos hc]
      exact ih (i + 1) _ (keysOf_addBlock_nodup bl (strip line) (i + 1) h)
    · rw [buildBlocks, if_neg hc]
      exact ih (i + 1) bl h

/-- A non-empty lookup result is an actual entry of the dictionary. -/
theorem lookupBlock_mem : ∀ (bl : List (Line × List Nat)) (s : Line),
    lookupBlock bl s ≠ [] → (s, lookupBlock bl s) ∈ bl := by
  intro bl
  induction bl with
  | nil => intro s h; simp [lookupBlock] at h
  | cons b rest ih =>
    intro s h
    obtain ⟨k, ns⟩ := b
    by_cases hks : k = s
    · subst hks
      rw [lookupBlock, if_pos rfl]
      exact List.mem_cons_self _ _
    · rw [lookupBlock, if_neg hks] at h ⊢
      exact List.mem_cons_of_mem _ (ih s h)

/-- With distinct keys, every entry of the dictionary is its own lookup
result. -/
theorem mem_lookupBlock : ∀ (bl : List (Line × List Nat)),
    (keysOf bl).Nodup → ∀ (s : Line) (ns : List Nat),
    (s, ns) ∈ bl → lookupBlock bl s = ns := by
  intro bl
  induction bl with
  | nil => intro _ s ns h; simp at h
  | cons b rest ih =>
    intro hnd s ns h
    obtain ⟨k, v⟩ := b
    have hnd' : (k :: keysOf rest).Nodup := by simpa [keysOf] using hnd
    have hk : k ∉ keysOf rest := (List.nodup_cons.mp hnd').1
    have hrest : (keysOf rest).Nodup := (List.nodup_cons.mp hnd').2
    rcases List.mem_cons.mp h with h | h
    · cases h
      rw [lookupBlock, if_pos rfl]
    · have hks : k ≠ s := by
        intro he
        subst he
        exact hk (by simpa [keysOf] using List.mem_map_of_mem Prod.fst h)
      rw [lookupBlock, if_neg hks]
      exact ih hrest s ns h

/-- Line-number bounds for the occurrence lists. -/
theorem mem_occLinesFrom : ∀ (rest : List Line) (i : Nat) (s : Line) (n : Nat),
    n ∈ occLinesFrom i rest s → i < n ∧ n ≤ i + rest.length := by
  intro rest
  induction rest with
  | nil => intro i s n h; simp [occLinesFrom] at h
  | cons line r ih =>
    intro i s n h
    rw [occLinesFrom] at h
    rcases List.mem_append.mp h with h | h
    · by_cases hc : (isCodeText (strip line) && strip line = s) = true
      · rw [if_pos hc] at h
        rw [List.mem_singleton] at h
        subst h
        refine ⟨by omega, by simp⟩
      · rw [if_neg hc] at h
        simp at h
    · have := ih (i + 1) s n h
      refine ⟨by omega, ?_⟩
      simp only [List.length_cons]
      omega

/-- Occurrence lists contain no duplicate line numbers. -/
theorem occLinesFrom_nodup : ∀ (rest : List Line) (i : Nat) (s : Line),
    (occLinesFrom i rest s).Nodup := by
  intro rest
  induction rest with
  | nil => intro i s; simp [occLinesFrom]
  | cons line r ih =>
    intro i s
    rw [occLinesFrom]
    by_cases hc : (isCodeText (strip line) && strip line = s) = true
    · rw [if_pos hc, List.singleton_append, List.nodup_cons]
      refine ⟨fun hmem => ?_, ih (i + 1) s⟩
      have := mem_occLinesFrom r (i + 1) s (i + 1) hmem
      omega
    · rw [if_neg hc, List.nil_append]
      exact ih (i + 1) s

/-! Shape of the issues emitted by the duplication pass. -/

/-- Membership in the issues of one block. -/
theorem mem_emitDup (b : Line × List Nat) (x : CodeIssue) :
    x ∈ emitDup b ↔ b.2.length > 1 ∧ b.1.length > 20 ∧
      ∃ n ∈ b.2, x = ⟨n, "Duplication", dupDescr b.2.length, b.1⟩ := by
  rw [emitDup]
  by_cases h : (b.2.length > 1 && b.1.length > 20) = true
  · rw [if_pos h]
    simp only [Bool.and_eq_true, decide_eq_true_eq] at h
    simp [List.mem_map, h.1, h.2]
    constructor
    · rintro ⟨n, hn, rfl⟩; exact ⟨n, hn, rfl⟩
    · rintro ⟨n, hn, rfl⟩; exact ⟨n, hn, rfl⟩
  · rw [if_neg h]
    simp only [Bool.and_eq_true, decide_eq_true_eq] at h
    simp only [List.not_mem_nil, false_iff]
    intro hcon
    exact h ⟨hcon.1, hcon.2.1⟩

/-- The dictionary entry for key `s` is the occurrence list of `s`. -/
theorem buildBlocks_lookup_occ (content : List Line) (s : Line) :
    lookupBlock (buildBlocks [] 0 content) s = occurrenceLines content s := by
  rw [buildBlocks_lookup, occurrenceLines, lookupBlock, List.nil_append]

/-- Every issue of the duplication pass is the canonical issue of one
occurrence of a repeated, over-threshold stripped code text. -/
theorem dup_shape (content : List Line) (x : CodeIssue)
    (h : x ∈ detect_duplicate_code content) :
    (occurrenceLines content x.code_snippet).length > 1 ∧
      x.code_snippet.length > 20 ∧
      x.line_number ∈ occurrenceLines content x.code_snippet ∧
      x.issue_type = "Duplication" ∧
      x.description = dupDescr (occurrenceLines content x.code_snippet).length := by
  rw [detect_duplicate_code] at h
  obtain ⟨b, hb, hx⟩ := (mem_concatMapL emitDup _ x).mp h
  have hnd := buildBlocks_keys_nodup content 0 [] (by simp [keysOf])
  have hlk : lookupBlock (buildBlocks [] 0 content) b.1 = b.2 :=
    mem_lookupBlock _ hnd b.1 b.2 (by rwa [Prod.mk.eta])
  have hocc : b.2 = occurrenceLines content b.1 := by
    rw [← hlk, buildBlocks_lookup_occ]
  obtain ⟨h1, h2, n, hn, hxe⟩ := (mem_emitDup b x).mp hx
  subst hxe
  refine ⟨?_, h2, ?_, rfl, ?_⟩
  · show (occurrenceLines content b.1).length > 1
    rw [← hocc]
    exact h1
  · show n ∈ occurrenceLines content b.1
    rw [← hocc]
    exact hn
  · show dupDescr b.2.length = dupDescr (occurrenceLines content b.1).length
    rw [← hocc]

/-- Each occurrence of a repeated, over-threshold code text is reported
exactly once. -/
theorem dup_count_one (content : List Line) (s : Line) (n : Nat)
    (h1 : (occurrenceLines content s).length > 1) (h2 : s.length > 20)
    (hn : n ∈ occurrenceLines content s) :
    (detect_duplicate_code content).count
      ⟨n, "Duplication", dupDescr (occurrenceLines content s).length, s⟩ = 1 := by
  have hnd := buildBlocks_keys_nodup content 0 [] (by simp [keysOf])
  have hlk := buildBlocks_lookup_occ content s
  have hne : lookupBlock (buildBlocks [] 0 content) s ≠ [] := by
    rw [hlk]
    intro hempty
    rw [hempty] at h1
    simp at h1
  have hmem : (s, occurrenceLines content s) ∈ buildBlocks [] 0 content := by
    have := lookupBlock_mem _ s hne
    rwa [hlk] at this
  have hblnd : (buildBlocks [] 0 content).Nodup := List.Nodup.of_map Prod.fst hnd
  rw [detect_duplicate_code]
  rw [count_concatMapL_unique emitDup _ _ (s, occurrenceLines content s) hblnd hmem ?_]
  · have hinj : Function.Injective
        (fun m => (⟨m, "Duplication", dupDescr (occurrenceLines content s).length, s⟩ : CodeIssue)) := by
      intro a b hab
      simpa using hab
    rw [emitDup]
    have hcond : ((s, occurrenceLines content s).2.length > 1
        && (s, occurrenceLines content s).1.length > 20) = true := by
      simp [h1, h2]
    rw [if_pos hcond]
    have := List.count_map_of_injective (occurrenceLines content s)
      (fun m => (⟨m, "Duplication", dupDescr (occurrenceLines content s).length, s⟩ : CodeIssue))
      hinj n
    simp only at this ⊢
    rw [this]
    exact List.count_eq_one_of_mem (occLinesFrom_nodup content 0 s) hn
  · intro b hb hbne
    rw [List.count_eq_zero]
    intro hx
    obtain ⟨hb1, hb2, m, hm, hxe⟩ := (mem_emitDup b _).mp hx
    have hfst : b.1 = s := by
      have := congrArg CodeIssue.code_snippet hxe
      simpa using this.symm
    have hsnd : b.2 = occurrenceLines content s := by
      have := mem_lookupBlock _ hnd b.1 b.2 (by rwa [Prod.mk.eta])
      rw [hfst] at this
      rw [← this, hlk]
    refine hbne ?_
    rw [← hsnd, ← hfst]

/-! Step equations and bounds for the long-method state machine. -/

/-- Unfolding of `longAux` on a non-empty file. -/
theorem longAux_cons (st : Option (Nat × Line)) (bc : Int) (i : Nat)
    (line : Line) (rest : List Line) :
    longAux st bc i (line :: rest) =
      (longStep st bc i line).2
        ++ longAux (longStep st bc i line).1.1 (longStep st bc i line).1.2 (i + 1) rest := rfl

/-- Behaviour of one loop iteration when no method is being tracked. -/
theorem longStep_none_eq (bc : Int) (i : Nat) (line : Line) :
    longStep none bc i line =
      if matchMethodSig (strip line) = true then
        (if braceDelta (strip line) ≤ 0 then ((none, braceDelta (strip line)), [])
         else ((some (i + 1, strip line), braceDelta (strip line)), []))
      else ((none, bc), []) := by
  have hzero : (i : Int) + 1 - ((i + 1 : Nat) : Int) = 0 := by push_cast; ring
  by_cases hm : matchMethodSig (strip line) = true
  · rw [if_pos hm]
    by_cases hb : braceDelta (strip line) ≤ 0
    · rw [if_pos hb]
      simp [longStep, hm, hb, hzero]
    · rw [if_neg hb]
      simp [longStep, hm, hb]
  · rw [if_neg hm]
    simp [longStep, hm]

/-- Behaviour of one loop iteration while a method started at line `s` is
being tracked. -/
theorem longStep_some_eq (s : Nat) (snip : Line) (bc : Int) (i : Nat) (line : Line) :
    longStep (some (s, snip)) bc i line =
      if bc + braceDelta (strip line) ≤ 0 then
        ((none, bc + braceDelta (strip line)),
         if (i : Int) + 1 - s > 20 then
           [⟨s, "Long Method", longDescr ((i : Int) + 1 - s), snip⟩]
         else [])
      else ((some (s, snip), bc + braceDelta (strip line)), []) := by
  by_cases hb : bc + braceDelta (strip line) ≤ 0
  · rw [if_pos hb]
    simp [longStep, hb]
  · rw [if_neg hb]
    simp [longStep, hb]

/-- Any issue emitted by one loop iteration is anchored at the tracked
start line or at the current line. -/
theorem longStep_issue_mem (st : Option (Nat × Line)) (bc : Int) (i : Nat)
    (line : Line) (x : CodeIssue) (hx : x ∈ (longStep st bc i line).2) :
    (∃ snip, st = some (x.line_number, snip)) ∨ x.line_number = i + 1 := by
  rcases st with _ | ⟨s, snip⟩
  · rw [longStep_none_eq] at hx
    by_cases hm : matchMethodSig (strip line) = true
    · rw [if_pos hm] at hx
      by_cases hb : braceDelta (strip line) ≤ 0
      · rw [if_pos hb] at hx; simp at hx
      · rw [if_neg hb] at hx; simp at hx
    · rw [if_neg hm] at hx; simp at hx
  · rw [longStep_some_eq] at hx
    by_cases hb : bc + braceDelta (strip line) ≤ 0
    · rw [if_pos hb] at hx
      by_cases hl : (i : Int) + 1 - s > 20
      · rw [if_pos hl] at hx
        rw [List.mem_singleton] at hx
        subst hx
        exact Or.inl ⟨snip, rfl⟩
      · rw [if_neg hl] at hx; simp at hx
    · rw [if_neg hb] at hx; simp at hx

/-- The tracking state after one iteration either carries over or starts at
the current line. -/
theorem longStep_state (st : Option (Nat × Line)) (bc : Int) (i : Nat)
    (line : Line) (s : Nat) (snip : Line)
    (h : (longStep st bc i line).1.1 = some (s, snip)) :
    st = some (s, snip) ∨ s = i + 1 := by
  rcases st with _ | ⟨s0, snip0⟩
  · rw [longStep_none_eq] at h
    by_cases hm : matchMethodSig (strip line) = true
    · rw [if_pos hm] at h
      by_cases hb : braceDelta (strip line) ≤ 0
      · rw [if_pos hb] at h; simp at h
      · rw [if_neg hb] at h
        simp at h
        exact Or.inr h.1.symm
    · rw [if_neg hm] at h; simp at h
  · rw [longStep_some_eq] at h
    by_cases hb : bc + braceDelta (strip line) ≤ 0
    · rw [if_pos hb] at h; simp at h
    · rw [if_neg hb] at h
      simp at h
      exact Or.inl (by rw [h.1, h.2])

/-- Any issue of the long-method loop run from a valid state has its line
number within the file region scanned. -/
theorem longAux_bound : ∀ (rest : List Line) (st : Option (Nat × Line))
    (bc : Int) (i : Nat),
    (∀ s snip, st = some (s, snip) → 1 ≤ s ∧ s ≤ i) →
    ∀ x ∈ longAux st bc i rest, 1 ≤ x.line_number ∧ x.line_number ≤ i + rest.length := by
  intro rest
  induction rest with
  | nil => intro st bc i _ x hx; simp [longAux] at hx
  | cons line r ih =>
    intro st bc i hst x hx
    rw [longAux_cons] at hx
    rcases List.mem_append.mp hx with hx | hx
    · rcases longStep_issue_mem st bc i line x hx with ⟨snip, hs⟩ | hs
      · have := hst x.line_number snip hs
        refine ⟨this.1, ?_⟩
        simp only [List.length_cons]
        omega
      · refine ⟨by omega, ?_⟩
        simp only [List.length_cons]
        omega
    · have hnext : ∀ s snip, (longStep st bc i line).1.1 = some (s, snip) →
          1 ≤ s ∧ s ≤ i + 1 := by
        intro s snip h
        rcases longStep_state st bc i line s snip h with h | h
        · have := hst s snip h
          omega
        · omega
      have := ih (longStep st bc i line).1.1 (longStep st bc i line).1.2 (i + 1) hnext x hx
      refine ⟨this.1, ?_⟩
      simp only [List.length_cons]
      omega

/-! Per-line shape of the dead-code and potential-bug passes. -/

/-- Issues contributed at index `i` of the dead-code pass are anchored at
line `i + 1`. -/
theorem deadAt_line_number (content : List Line) (i : Nat) (line : Line)
    (x : CodeIssue) (hx : x ∈ deadAt content i line) : x.line_number = i + 1 := by
  rw [deadAt] at hx
  by_cases hm : matchPrivateDecl (strip line) = true
  · rw [if_pos hm] at hx
    by_cases hcall : isCalled content (deriveName (strip line)) line = true
    · rw [if_pos hcall] at hx; simp at hx
    · rw [if_neg hcall] at hx
      rw [List.mem_singleton] at hx
      subst hx
      rfl
  · rw [if_neg hm] at hx; simp at hx

/-- Issues contributed at index `i` of the potential-bug pass are anchored
at line `i + 1`. -/
theorem bugsAt_line_number (i : Nat) (line : Line) (x : CodeIssue)
    (hx : x ∈ bugsAt i line) : x.line_number = i + 1 := by
  rw [bugsAt] at hx
  rcases List.mem_append.mp hx with hx | hx
  · by_cases hc : (searchNull (strip line) && !(strip line).contains '?') = true
    · rw [if_pos hc] at hx
      rw [List.mem_singleton] at hx
      subst hx
      rfl
    · rw [if_neg hc] at hx; simp at hx
  · by_cases hc : searchCatch (strip line) = true
    · rw [if_pos hc] at hx
      rw [List.mem_singleton] at hx
      subst hx
      rfl
    · rw [if_neg hc] at hx; simp at hx

/-- Membership in a per-line pass reduces to membership in the contribution
of the unique index the issue is anchored at. -/
theorem mem_linePass (f : Nat × Line → List CodeIssue)
    (hf : ∀ p x, x ∈ f p → CodeIssue.line_number x = p.1 + 1)
    (content : List Line) (i : Nat) (line : Line)
    (hmem : (i, line) ∈ enumLines 0 content) (x : CodeIssue)
    (hx : x.line_number = i + 1) :
    x ∈ concatMapL f (enumLines 0 content) ↔ x ∈ f (i, line) := by
  constructor
  · intro h
    obtain ⟨p, hp, hpx⟩ := (mem_concatMapL f _ x).mp h
    have hnum := hf p x hpx
    have hpi : p.1 = i := by omega
    have hline : p.2 = line := by
      refine enumLines_snd_eq 0 content i p.2 line ?_ hmem
      rw [← hpi]
      simpa using hp
    have : p = (i, line) := by
      rw [← hpi, ← hline]
    rw [← this]
    exact hpx
  · intro h
    exact (mem_concatMapL f _ x).mpr ⟨(i, line), hmem, h⟩

/-! Substring facts feeding the unused-import pass. -/

/-- The remainder returned by `dropLit` is a suffix of the input. -/
theorem dropLit_suffix : ∀ (pat s r : Line), dropLit pat s = some r → r <:+ s := by
  intro pat
  induction pat with
  | nil =>
    intro s r h
    rw [dropLit] at h
    cases h
    exact List.suffix_refl s
  | cons c pr ih =>
    intro s r h
    cases s with
    | nil => exact absurd h (by simp [dropLit])
    | cons d s1 =>
      rw [dropLit] at h
      by_cases hc : c = d
      · rw [if_pos hc] at h
        exact (ih s1 r h).trans (List.suffix_cons d s1)
      · rw [if_neg hc] at h
        simp at h

/-- The capture accumulated by `takeQuotedGo` is a prefix of the
accumulator-prefixed input. -/
theorem takeQuotedGo_prefix : ∀ (l acc p : Line),
    takeQuotedGo acc l = some p → p <+: (acc.reverse ++ l) := by
  intro l
  induction l with
  | nil => intro acc p h; simp [takeQuotedGo] at h
  | cons c rest ih =>
    intro acc p h
    rw [takeQuotedGo] at h
    by_cases hq : (c = squoteC || c = dquoteC) = true
    · rw [if_pos hq] at h
      cases h
      exact List.prefix_append acc.reverse (c :: rest)
    · rw [if_neg hq] at h
      have := ih (c :: acc) p h
      rw [List.reverse_cons, List.append_assoc] at this
      simpa using this

/-- The capture of `(.+?)['"]` is a prefix of the text after the opening
quote. -/
theorem takeQuoted_prefix (l p : Line) (h : takeQuoted l = some p) : p <+: l := by
  cases l with
  | nil => simp [takeQuoted] at h
  | cons c rest =>
    rw [takeQuoted] at h
    have := takeQuotedGo_prefix rest [c] p h
    simpa using this

/-- The captured import path occurs inside the matched text. -/
theorem parseImport_infix (s path : Line) (h : parseImport s = some path) :
    path <:+: s := by
  rw [parseImport] at h
  split at h
  · simp at h
  · rename_i r heq
    have hr : r <:+ s := dropLit_suffix _ s r heq
    split at h
    · simp at h
    · rename_i c r1
      split at h
      · split at h
        · simp at h
        · rename_i hq q r2 heq2
          split at h
          · have hp : path <+: r2 := takeQuoted_prefix r2 path h
            have h1 : (q :: r2) <:+ (c :: r1) := by
              rw [← heq2]
              exact List.dropWhile_suffix pyWS
            have h2 : r2 <:+ (q :: r2) := List.suffix_cons q r2
            exact hp.isInfix.trans (((h2.trans h1).trans hr).isInfix)
          · simp at h
      · simp at h

/-- The stripped text occurs inside the raw line. -/
theorem strip_infix (l : Line) : strip l <:+: l := by
  rw [strip]
  have h1 : l.dropWhile pyWS <:+ l := List.dropWhile_suffix pyWS
  have h2 : (l.dropWhile pyWS).reverse.dropWhile pyWS <:+ (l.dropWhile pyWS).reverse :=
    List.dropWhile_suffix pyWS
  have h3 : ((l.dropWhile pyWS).reverse.dropWhile pyWS).reverse <+: l.dropWhile pyWS := by
    rw [← List.reverse_suffix]
    simpa using h2
  exact h3.isInfix.trans h1.isInfix

/-- The final path segment is a suffix of the path. -/
theorem lastSegment_suffix (path : Line) : lastSegment path <:+ path := by
  rw [lastSegment]
  have h : path.reverse.takeWhile (fun c => c ≠ '/') <+: path.reverse :=
    List.takeWhile_prefix _
  rw [← List.reverse_prefix]
  simpa using h

/-- When a segment contains a dot, its part before the first dot followed
by a dot is a prefix of the segment. -/
theorem dot_split : ∀ (seg : Line), '.' ∈ seg → firstPart seg ++ ['.'] <+: seg := by
  intro seg
  induction seg with
  | nil => intro h; simp at h
  | cons c r ih =>
    intro h
    by_cases hc : c = '.'
    · subst hc
      have h0 : firstPart ('.' :: r) = [] := by simp [firstPart]
      rw [h0, List.nil_append]
      exact ⟨r, rfl⟩
    · have hr : '.' ∈ r := by
        rcases List.mem_cons.mp h with h | h
        · exact absurd h.symm hc
        · exact h
      have hih := ih hr
      rw [firstPart] at hih ⊢
      rw [List.takeWhile_cons, if_pos (by simpa using hc)]
      rw [List.cons_append]
      exact (List.cons_prefix_cons).mpr ⟨rfl, hih⟩

/-- Substring occurrence implies the Python `in` test succeeds. -/
theorem containsSub_of_infix (pat l : Line) (h : pat <:+: l) :
    containsSub pat l = true := by
  rw [containsSub, List.any_eq_true]
  obtain ⟨t, hpt, htl⟩ := List.infix_iff_prefix_suffix.mp h
  exact ⟨t, (List.mem_tails _ _).mpr htl, List.isPrefixOf_iff_prefix.mpr hpt⟩

/-! Shape of the issues emitted by the unused-import pass. -/

/-- Every collected import comes from a matching line. -/
theorem mem_collectImports (content : List Line) (q : Nat × Line)
    (h : q ∈ collectImports content) :
    ∃ p ∈ enumLines 0 content, parseImport (strip p.2) = some q.2 ∧ q.1 = p.1 + 1 := by
  rw [collectImports] at h
  obtain ⟨p, hp, hq⟩ := List.mem_filterMap.mp h
  rcases hpi : parseImport (strip p.2) with _ | path
  · rw [hpi] at hq
    simp at hq
  · rw [hpi] at hq
    cases hq
    exact ⟨p, hp, hpi, rfl⟩

/-- Every issue of the unused-import pass is the canonical issue of one
collected import whose identifier is used nowhere. -/
theorem unused_shape (content : List Line) (x : CodeIssue)
    (h : x ∈ detect_unused_imports content) :
    ∃ q ∈ collectImports content, isUsed content (importName q.2) = false ∧
      x = ⟨q.1, "Unused Import", "Unused import: " ++ String.mk q.2,
           strip (content.getD (q.1 - 1) [])⟩ := by
  rw [detect_unused_imports] at h
  obtain ⟨q, hq, hqs⟩ := List.mem_filterMap.mp h
  by_cases hu : isUsed content (importName q.2) = true
  · rw [if_pos hu] at hqs
    simp at hqs
  · rw [if_neg hu] at hqs
    simp only [Option.some_inj] at hqs
    exact ⟨q, hq, by simpa using hu, hqs.symm⟩

/-- Two imports collected at the same line number captured the same path. -/
theorem collectImports_path_unique (content : List Line) (n : Nat)
    (path path' : Line) (h : (n, path) ∈ collectImports content)
    (h' : (n, path') ∈ collectImports content) : path = path' := by
  obtain ⟨p, hp, hpi, hn⟩ := mem_collectImports content (n, path) h
  obtain ⟨p', hp', hpi', hn'⟩ := mem_collectImports content (n, path') h'
  simp only at hpi hpi' hn hn'
  have hidx : p.1 = p'.1 := by omega
  have hline : p.2 = p'.2 := by
    refine enumLines_snd_eq 0 content p.1 p.2 p'.2 (by simpa using hp) ?_
    rw [hidx]
    simpa using hp'
  rw [hline, hpi'] at hpi
  exact (Option.some_inj.mp hpi).symm

/-- An import whose final path segment contains a dot is always considered
used: the import line itself contains `"<identifier>."`. -/
theorem dotted_import_used (content : List Line) (p : Nat × Line)
    (hp : p ∈ enumLines 0 content) (path : Line)
    (h : parseImport (strip p.2) = some path) (hdot : '.' ∈ lastSegment path) :
    isUsed content (importName path) = true := by
  have hinfix : (importName path ++ ['.']) <:+: p.2 := by
    have h1 : importName path ++ ['.'] <+: lastSegment path := dot_split _ hdot
    have h2 : lastSegment path <:+ path := lastSegment_suffix path
    have h3 : path <:+: strip p.2 := parseImport_infix _ _ h
    have h4 : strip p.2 <:+: p.2 := strip_infix p.2
    exact (h1.isInfix.trans h2.isInfix).trans (h3.trans h4)
  rw [isUsed, List.any_eq_true]
  refine ⟨p.2, (mem_enumLines 0 content p hp).2.2, ?_⟩
  rw [ containsSub_of_infix _ _ hinfix]
  exact Bool.true_or _

/-! Line-number bounds for each pass. -/

/-- Bounds for the duplication pass. -/
theorem dup_bound (content : List Line) (x : CodeIssue)
    (h : x ∈ detect_duplicate_code content) :
    1 ≤ x.line_number ∧ x.line_number ≤ content.length := by
  have hs := dup_shape content x h
  have := mem_occLinesFrom content 0 x.code_snippet x.line_number hs.2.2.1
  omega

/-- Bounds for the unused-import pass. -/
theorem unused_bound (content : List Line) (x : CodeIssue)
    (h : x ∈ detect_unused_imports content) :
    1 ≤ x.line_number ∧ x.line_number ≤ content.length := by
  obtain ⟨q, hq, _, hxe⟩ := unused_shape content x h
  obtain ⟨p, hp, _, hn⟩ := mem_collectImports content q hq
  have hb := mem_enumLines 0 content p hp
  have : x.line_number = q.1 := by rw [hxe]
  omega

/-- Bounds for the long-method pass. -/
theorem long_bound (content : List Line) (x : CodeIssue)
    (h : x ∈ detect_long_methods content) :
    1 ≤ x.line_number ∧ x.line_number ≤ content.length := by
  rw [detect_long_methods] at h
  have := longAux_bound content none 0 0 (fun s snip hs => by simp at hs) x h
  omega

/-- Bounds for the dead-code pass. -/
theorem dead_bound (content : List Line) (x : CodeIssue)
    (h : x ∈ detect_dead_code content) :
    1 ≤ x.line_number ∧ x.line_number ≤ content.length := by
  rw [detect_dead_code] at h
  obtain ⟨p, hp, hpx⟩ := (mem_concatMapL _ _ x).mp h
  have h1 := deadAt_line_number content p.1 p.2 x hpx
  have h2 := mem_enumLines 0 content p hp
  omega

/-- Bounds for the potential-bug pass. -/
theorem bugs_bound (content : List Line) (x : CodeIssue)
    (h : x ∈ detect_potential_bugs content) :
    1 ≤ x.line_number ∧ x.line_number ≤ content.length := by
  rw [detect_potential_bugs] at h
  obtain ⟨p, hp, hpx⟩ := (mem_concatMapL _ _ x).mp h
  have h1 := bugsAt_line_number p.1 p.2 x hpx
  have h2 := mem_enumLines 0 content p hp
  omega

/-! Sum of the per-category counts. -/

/-- One bump adds one to the total of the counting dictionary. -/
theorem bumpCount_sum : ∀ (acc : List (String × Nat)) (t : String),
    ((bumpCount acc t).map Prod.snd).sum = (acc.map Prod.snd).sum + 1 := by
  intro acc t
  induction acc with
  | nil => simp [bumpCount]
  | cons b rest ih =>
    obtain ⟨k, n⟩ := b
    by_cases hk : k = t
    · subst hk
      simp [bumpCount]
      omega
    · simp [bumpCount, hk]
      omega

/-- The counting loop adds the number of processed issues to the total. -/
theorem foldl_bumpCount_sum : ∀ (issues : List CodeIssue) (acc : List (String × Nat)),
    ((issues.foldl (fun a x => bumpCount a x.issue_type) acc).map Prod.snd).sum
      = (acc.map Prod.snd).sum + issues.length := by
  intro issues
  induction issues with
  | nil => intro acc; simp
  | cons x r ih =>
    intro acc
    rw [List.foldl_cons, ih, bumpCount_sum]
    simp only [List.length_cons]
    omega

/-- The values of the counting dictionary sum to the number of issues. -/
theorem issue_counts_sum (issues : List CodeIssue) :
    ((issue_counts issues).map Prod.snd).sum = issues.length := by
  rw [issue_counts, foldl_bumpCount_sum]
  simp

/-! ## Claim theorems -/

/-- Claim C1 (counterexample): the import pattern does match the
`button.dart` import line, yet on a file whose only line is that import
the pass emits zero findings, not the one finding the claim predicts —
the usage scan includes the import line itself, whose text contains the
substring `button.`. -/
theorem unusedImport_button_example_not_one :
    parseImport (strip exImportButton) = some exButtonPath ∧
      (detect_unused_imports [exImportButton]).length ≠ 1 := by
  constructor
  · decide
  · decide

/-- Claim C1 (amended): for a file in which
`import 'package:app/widgets/button.dart';` is the only line whose text
references `button`, the pass emits zero UnusedImport findings (the usage
scan covers the import line itself, whose path text contains `button.`),
and with `button.onTap()` on another line it also emits zero findings. -/
theorem unusedImport_button_example_zero :
    detect_unused_imports [exImportButton] = [] ∧
      detect_unused_imports [exImportButton, exUseButton] = [] := by
  constructor
  · decide
  · decide

/-- Claim C2 (counterexample): in a 21-line file whose method starts at
line 1 and closes at line 21, the claim's formula gives length
`21 - 1 + 1 = 21 > 20` and so predicts a LongMethod finding, but the pass
emits none; and in a 22-line file (closing at line 22) the emitted
description embeds `21`, not the claim's `22` — the code computes
`closing_line - start_line`, without the `+ 1`. -/
theorem longMethod_length_formula_cex :
    detect_long_methods exFile21 = [] ∧
      ((21 : Int) - 1 + 1 > 20) ∧
      detect_long_methods exFile22
        = [⟨1, "Long Method", longDescr 21, strip exSigLine⟩] := by
  refine ⟨by decide, by decide, by decide⟩

/-- Claim C2 (amended): whenever the running brace counter reaches `≤ 0`
on a line while a method started at line `s` is tracked, the method length
is computed as `closing_line - start_line` (the current line being line
`i + 1`), a LongMethod finding anchored at `s` with that length in its
description is emitted exactly when the length exceeds 20, and tracking
resets to "not inside a method" so a subsequent signature match can start
a new scan. -/
theorem longMethod_close_step (s : Nat) (snip : Line) (bc : Int) (i : Nat)
    (line : Line) (h : bc + braceDelta (strip line) ≤ 0) :
    longStep (some (s, snip)) bc i line =
      ((none, bc + braceDelta (strip line)),
       if (i : Int) + 1 - s > 20 then
         [⟨s, "Long Method", longDescr ((i : Int) + 1 - s), snip⟩]
       else []) := by
  rw [longStep_some_eq, if_pos h]

/-- Witness for the amended C2: with the method tracked from line 1 and
the brace counter at 1, the closing brace on line 21 closes the method
with computed length 20 and no finding. -/
theorem longMethod_close_step_instance :
    longStep (some (1, strip exSigLine)) 1 20 exCloseLine = ((none, 0), []) := by
  rw [longMethod_close_step 1 (strip exSigLine) 1 20 exCloseLine (by decide)]
  decide

/-- Claim C3: the duplication pass groups non-blank lines whose trimmed
text does not begin with a comment marker by their trimmed text; every
occurrence of a group with more than one occurrence and trimmed length
greater than 20 yields exactly one finding citing the group's occurrence
count, and every finding of the pass arises this way. -/
theorem duplication_grouping (content : List Line) :
    (∀ (s : Line) (n : Nat), (occurrenceLines content s).length > 1 →
        s.length > 20 → n ∈ occurrenceLines content s →
        (detect_duplicate_code content).count
          ⟨n, "Duplication", dupDescr (occurrenceLines content s).length, s⟩ = 1)
    ∧ (∀ x ∈ detect_duplicate_code content,
        (occurrenceLines content x.code_snippet).length > 1 ∧
          x.code_snippet.length > 20 ∧
          x.line_number ∈ occurrenceLines content x.code_snippet ∧
          x.issue_type = "Duplication" ∧
          x.description = dupDescr (occurrenceLines content x.code_snippet).length) :=
  ⟨fun s n h1 h2 hn => dup_count_one content s n h1 h2 hn,
   fun x hx => dup_shape content x hx⟩

/-- Witness for C3: in a file repeating a 24-character line on lines 1 and
3, the occurrence at line 1 is reported exactly once with count 2. -/
theorem duplication_grouping_instance :
    (detect_duplicate_code exDupFile).count
      ⟨1, "Duplication", dupDescr (occurrenceLines exDupFile (strip exDupLine)).length,
       strip exDupLine⟩ = 1 :=
  (duplication_grouping exDupFile).1 (strip exDupLine) 1 (by decide) (by decide) (by decide)

/-- Claim C4: for a line matching the private-member-declaration pattern,
with member name the token immediately preceding the parenthesis, the
dead-code pass emits a DeadCode finding at that line's number exactly when
no line of the file whose raw text differs from the matched line's raw
text contains the substring `"<name>("`. -/
theorem deadCode_flag_iff (content : List Line) (i : Nat) (line : Line)
    (hmem : (i, line) ∈ enumLines 0 content)
    (hm : matchPrivateDecl (strip line) = true) :
    ((⟨i + 1, "Dead Code", deadDescr (deriveName (strip line)), strip line⟩ : CodeIssue)
        ∈ detect_dead_code content
      ↔ ¬ ∃ other ∈ content, other ≠ line ∧
          containsSub (deriveName (strip line) ++ ['(']) other = true) := by
  rw [detect_dead_code]
  rw [mem_linePass (fun p => deadAt content p.1 p.2)
    (fun p x hx => deadAt_line_number content p.1 p.2 x hx) content i line hmem _ rfl]
  have hred : deadAt content i line =
      if isCalled content (deriveName (strip line)) line then []
      else [⟨i + 1, "Dead Code", deadDescr (deriveName (strip line)), strip line⟩] := by
    simp only [deadAt, hm, if_true]
  rw [hred]
  by_cases hcall : isCalled content (deriveName (strip line)) line = true
  · rw [if_pos hcall]
    rw [isCalled, List.any_eq_true] at hcall
    obtain ⟨other, ho, hoc⟩ := hcall
    rw [Bool.and_eq_true] at hoc
    simp only [List.not_mem_nil, false_iff, not_not]
    exact ⟨other, ho, by simpa using hoc.2, hoc.1⟩
  · rw [if_neg hcall]
    simp only [List.mem_singleton, true_iff]
    intro hex
    obtain ⟨other, ho, hne, hcs⟩ := hex
    refine hcall ?_
    rw [isCalled, List.any_eq_true]
    exact ⟨other, ho, by simp [hcs, hne]⟩

/-- Witness for C4: `void _helper() {` as the only line of a file yields a
DeadCode finding at line 1. -/
theorem deadCode_flag_iff_instance :
    (⟨1, "Dead Code", deadDescr (deriveName (strip exDeadDecl)), strip exDeadDecl⟩ : CodeIssue)
      ∈ detect_dead_code [exDeadDecl] :=
  (deadCode_flag_iff [exDeadDecl] 0 exDeadDecl (by decide) (by decide)).mpr (by decide)

/-- Claim C5: per line, the two potential-bug checks are independent: the
null-check finding is emitted at a line exactly when its trimmed text
matches the `!\s*=\s*null` pattern and contains no `?` anywhere, and the
empty-catch finding is emitted exactly when the trimmed text contains a
`catch(...) { }` with only whitespace between the braces. -/
theorem potentialBug_checks_iff (content : List Line) (i : Nat) (line : Line)
    (hmem : (i, line) ∈ enumLines 0 content) :
    ((⟨i + 1, "Potential Bug", nullDescr, strip line⟩ : CodeIssue)
        ∈ detect_potential_bugs content
      ↔ searchNull (strip line) = true ∧ (strip line).contains '?' = false)
    ∧ ((⟨i + 1, "Potential Bug", catchDescr, strip line⟩ : CodeIssue)
        ∈ detect_potential_bugs content
      ↔ searchCatch (strip line) = true) := by
  have hne : nullDescr ≠ catchDescr := by decide
  have hmain := fun x hx => mem_linePass (fun p => bugsAt p.1 p.2)
    (fun p x hx => bugsAt_line_number p.1 p.2 x hx) content i line hmem x hx
  constructor
  · rw [detect_potential_bugs]
    rw [hmain _ rfl]
    simp only [bugsAt]
    constructor
    · intro h
      rcases List.mem_append.mp h with h | h
      · by_cases hA : (searchNull (strip line) && !(strip line).contains '?') = true
        · rw [Bool.and_eq_true, Bool.not_eq_true'] at hA
          exact hA
        · rw [if_neg hA] at h
          simp at h
      · by_cases hB : searchCatch (strip line) = true
        · rw [if_pos hB] at h
          rw [List.mem_singleton] at h
          have := congrArg CodeIssue.description h
          simp at this
          exact absurd this hne
        · rw [if_neg hB] at h
          simp at h
    · intro ⟨h1, h2⟩
      refine List.mem_append_left _ ?_
      rw [if_pos (by rw [Bool.and_eq_true, Bool.not_eq_true']; exact ⟨h1, h2⟩)]
      exact List.mem_singleton.mpr rfl
  · rw [detect_potential_bugs]
    rw [hmain _ rfl]
    simp only [bugsAt]
    constructor
    · intro h
      rcases List.mem_append.mp h with h | h
      · by_cases hA : (searchNull (strip line) && !(strip line).contains '?') = true
        · rw [if_pos hA] at h
          rw [List.mem_singleton] at h
          have := congrArg CodeIssue.description h
          simp at this
          exact absurd this.symm hne
        · rw [if_neg hA] at h
          simp at h
      · by_cases hB : searchCatch (strip line) = true
        · exact hB
        · rw [if_neg hB] at h
          simp at h
    · intro h
      refine List.mem_append_right _ ?_
      rw [if_pos h]
      exact List.mem_singleton.mpr rfl

/-- Witness for C5: `if (value != null) {` yields the null-check finding at
line 1. -/
theorem potentialBug_checks_iff_instance :
    (⟨1, "Potential Bug", nullDescr, strip exNullLine⟩ : CodeIssue)
      ∈ detect_potential_bugs [exNullLine] :=
  ((potentialBug_checks_iff [exNullLine] 0 exNullLine (by decide)).1).mpr (by decide)

/-- Claim C6: the metrics aggregator returns
`comment_lines / code_lines * 100` when `code_lines > 0` and `0` when
`code_lines = 0`; the division branch is guarded by the zero test. -/
theorem comment_density_guarded (content : List Line) :
    (code_lines content ≠ 0 →
      comment_density content
        = (comment_lines content : ℚ) / (code_lines content : ℚ) * 100)
    ∧ (code_lines content = 0 → comment_density content = 0) := by
  constructor
  · intro h
    rw [comment_density, if_pos h]
  · intro h
    rw [comment_density, if_neg (fun hne => hne h)]

/-- Witness for C6: one comment line and one code line give density 100;
a file with only comment lines gives density 0. -/
theorem comment_density_guarded_instance :
    comment_density exCommentFile = 100 ∧ comment_density exCommentOnly = 0 := by
  constructor
  · rw [(comment_density_guarded exCommentFile).1 (by decide)]
    have h1 : comment_lines exCommentFile = 1 := by decide
    have h2 : code_lines exCommentFile = 1 := by decide
    rw [h1, h2]
    norm_num
  · exact (comment_density_guarded exCommentOnly).2 (by decide)

/-- Claim C7: every finding produced by any of the five passes for a file
has its line number within `[1, total_lines]` of that file. -/
theorem findings_line_number_in_range (content : List Line) (x : CodeIssue)
    (h : x ∈ analyzeContent content) :
    1 ≤ x.line_number ∧ x.line_number ≤ total_lines content := by
  rw [analyzeContent] at h
  rw [total_lines]
  rcases List.mem_append.mp h with h | h
  · rcases List.mem_append.mp h with h | h
    · rcases List.mem_append.mp h with h | h
      · rcases List.mem_append.mp h with h | h
        · exact dup_bound content x h
        · exact unused_bound content x h
      · exact long_bound content x h
    · exact dead_bound content x h
  · exact bugs_bound content x h

/-- Witness for C7: the null-check finding of a one-line file is at line 1,
within `[1, 1]`. -/
theorem findings_line_number_in_range_instance :
    1 ≤ (⟨1, "Potential Bug", nullDescr, strip exNullLine⟩ : CodeIssue).line_number ∧
      (⟨1, "Potential Bug", nullDescr, strip exNullLine⟩ : CodeIssue).line_number
        ≤ total_lines [exNullLine] :=
  findings_line_number_in_range [exNullLine] _ (by decide)

/-- Casting the counting dictionary's values to `ℚ` commutes with summing. -/
theorem sum_map_cast (l : List (String × Nat)) :
    (l.map (fun p => (p.2 : ℚ))).sum = ((l.map Prod.snd).sum : ℚ) := by
  induction l with
  | nil => simp
  | cons b rest ih =>
    simp only [List.map_cons, List.sum_cons, ih]
    push_cast
    ring

/-- Claim C8: the per-category count entries added to the metrics mapping
(one per distinct category present, keyed by the normalized category name
suffixed `_count`) sum to the total number of findings of the file. -/
theorem category_counts_sum_to_findings (content : List Line) :
    ((countEntries (analyzeContent content)).map Prod.snd).sum
      = ((analyzeContent content).length : ℚ) := by
  have hmap : (countEntries (analyzeContent content)).map Prod.snd
      = (issue_counts (analyzeContent content)).map (fun p => (p.2 : ℚ)) := by
    rw [countEntries, List.map_map]
    rfl
  rw [hmap, sum_map_cast, issue_counts_sum]

/-- Claim C9: an import whose quoted path's final segment has the form
`<identifier>.<extension>` is never flagged: the usage scan covers every
line including the import line itself, whose text contains
`"<identifier>."`. -/
theorem dotted_import_never_unused (content : List Line) (n : Nat) (path : Line)
    (h : (n, path) ∈ collectImports content) (hdot : '.' ∈ lastSegment path) :
    n ∉ (detect_unused_imports content).map CodeIssue.line_number := by
  intro hmem
  obtain ⟨x, hx, hxn⟩ := List.mem_map.mp hmem
  obtain ⟨q, hq, hunused, hxe⟩ := unused_shape content x hx
  have hqn : q.1 = n := by
    rw [hxe] at hxn
    simpa using hxn
  have hqmem : (n, q.2) ∈ collectImports content := by
    rw [← hqn]
    simpa using hq
  have hpath : q.2 = path := collectImports_path_unique content n q.2 path hqmem h
  obtain ⟨p, hp, hpi, _⟩ := mem_collectImports content q hq
  have hused := dotted_import_used content p hp q.2 hpi (by rw [hpath]; exact hdot)
  rw [hunused] at hused
  exact absurd hused (by simp)

/-- Witness for C9: the `button.dart` import is collected at line 1, its
final segment contains a dot, and no UnusedImport finding is anchored at
line 1. -/
theorem dotted_import_never_unused_instance :
    ('.' ∈ lastSegment exButtonPath) ∧
      1 ∉ (detect_unused_imports [exImportButton]).map CodeIssue.line_number :=
  ⟨by decide,
   dotted_import_never_unused [exImportButton] 1 exButtonPath (by decide) (by decide)⟩

/-- Claim C10: a line matching the method-signature pattern while nothing
is tracked whose brace balance is `≤ 0` (in particular a signature with no
brace at all) closes tracking on that same line with computed length 0 and
emits no finding, so a method whose opening brace appears on a later line
is never reported from that signature. -/
theorem signature_without_open_brace_not_reported (bc : Int) (i : Nat)
    (line : Line) (hm : matchMethodSig (strip line) = true)
    (hb : braceDelta (strip line) ≤ 0) :
    longStep none bc i line = ((none, braceDelta (strip line)), []) := by
  rw [longStep_none_eq, if_pos hm, if_pos hb]

/-- Witness for C10: `void foo()` with its opening brace on a later line
starts and immediately closes tracking, emitting nothing. -/
theorem signature_without_open_brace_not_reported_instance :
    longStep none 0 0 exSigNoBrace = ((none, 0), []) := by
  rw [signature_without_open_brace_not_reported 0 0 exSigNoBrace (by decide) (by decide)]
  decide
